import Mathlib

/-!
# sigrand: a verification development

A shallow embedding of `sigrand.go` (a daemon that serves one randomly chosen
signature from `~/.sigfile` to every reader of the named pipe `~/.signature`)
together with theorems about its entry reader, its one-pass sampling loop and
its process lifecycle.

Conventions of the embedding

* A Go `string` / `[]byte` is a list of bytes (`Bytes`).
* `bufio.Scanner` with its default split function `bufio.ScanLines` and its
  default buffer limit `bufio.MaxScanTokenSize` is embedded from the Go standard
  library, on which `readSignatures` relies.
* The channel returned by `readSignatures` is embedded as the list of the values
  sent on it, in order, up to `close(c)`.
* `*rand.Rand` is embedded as the stream of the values its successive `Intn`
  calls return; nothing is assumed about these values unless a theorem says so.
* Go `int` values (`lineno`) are embedded as unbounded integers: the counter is
  bounded by the number of separator lines of a file.
* The operating system is embedded as a record of the three paths the program
  touches; `log.Fatal` / `log.Fatalf` is `os.Exit(1)` after printing.
* The goroutine started by `setup` is embedded by two events: it reaches `<-c`,
  and a signal is delivered. `signal.Notify` does not block when it sends on the
  channel, and the channel made by `make(chan os.Signal)` has no buffer, so a
  signal delivered while the goroutine is not yet blocked on `<-c` is dropped.
-/

namespace Sigrand

deriving instance DecidableEq for Except

/-! ## Byte strings -/

/-- A Go `string` or `[]byte`. -/
abbrev Bytes := List UInt8

/-- The bytes of an ASCII text, used to write inputs readably. -/
def ascii (s : String) : Bytes := s.toList.map (fun c => c.toNat.toUInt8)

/-- The byte `'\n'`. -/
abbrev NL : UInt8 := 10

/-- The byte `'\r'`. -/
abbrev CR : UInt8 := 13

/-- The separator line `"%%"` compared against in `readSignatures`. -/
def separator : Bytes := [37, 37]

/-! ## `bufio.Scanner` with `bufio.ScanLines` -/

/-- Go `bytes.IndexByte(data, c)`: the index of the first `c` in `data`;
`none` stands for the result `-1`. -/
def IndexByte : Bytes → UInt8 → Option Nat
  | [], _ => none
  | b :: rest, c => if b = c then some 0 else (IndexByte rest c).map (· + 1)

/-- Go `bufio.dropCR`: drops one terminal `'\r'` from the data. -/
def dropCR (data : Bytes) : Bytes :=
  if data.getLast? = some CR then data.dropLast else data

/-- Go `bufio.ScanLines(data, atEOF)`: the pair `(advance, token)`; the token
is `none` where the Go function returns a nil token (a request for more data,
or nothing left at end of file). -/
def ScanLines (data : Bytes) (atEOF : Bool) : Nat × Option Bytes :=
  if atEOF && data.length == 0 then (0, none)
  else
    match IndexByte data NL with
    | some i => (i + 1, some (dropCR (data.take i)))
    | none => if atEOF then (data.length, some (dropCR data)) else (0, none)

/-- Go `bufio.MaxScanTokenSize`, the default limit of a scanner's buffer. -/
def MaxScanTokenSize : Nat := 64 * 1024

/-- The tokens returned by successive calls of `scanner.Scan()` /
`scanner.Text()` on a file whose unread content is `input`, for at most `fuel`
calls.

The scanner hands its split function the unread bytes held in its buffer, which
grows up to `MaxScanTokenSize` bytes; end of file is observed only while the
buffer is not full. `Scan` returns `false` (the token list ends) at end of file
and when the buffer is full without holding a complete token
(`bufio.ErrTooLong`). -/
def scanTokens : Nat → Bytes → List Bytes
  | 0, _ => []
  | fuel + 1, input =>
    match ScanLines (input.take MaxScanTokenSize) (decide (input.length < MaxScanTokenSize)) with
    | (advance, some token) => token :: scanTokens fuel (input.drop advance)
    | (_, none) => []

/-- All lines a `bufio.Scanner` yields on a file of content `input`: every call
of `Scan` that returns a token consumes at least one byte, so `input.length + 1`
calls exhaust the file. -/
def scanLines (input : Bytes) : List Bytes :=
  scanTokens (input.length + 1) input

/-! ## `readSignatures` -/

/-- The state of the goroutine of `readSignatures`: the `strings.Builder` `sb`
and the values sent on the channel `c` so far. -/
structure Reader where
  sb : Bytes
  sent : List Bytes
  deriving DecidableEq, Repr

/-- The body of `for scanner.Scan()` in `readSignatures`, for one line. -/
def Reader.step (r : Reader) (line : Bytes) : Reader :=
  if line = separator then
    { sb := [], sent := r.sent ++ [r.sb] }
  else
    { r with sb := r.sb ++ line ++ [NL] }

/-- The scanning loop of `readSignatures` on the content of an opened file: the
values sent on the channel before it is closed. -/
def readEntries (content : Bytes) : List Bytes :=
  ((scanLines content).foldl Reader.step { sb := [], sent := [] }).sent

/-- The Go function `readSignatures(sigfile)`. The argument is what `os.Open`
finds at the path: `none` when the file cannot be opened, and then the
goroutine calls `log.Fatal`; otherwise the result is the sequence of entries
received from the channel. -/
def readSignatures (file : Option Bytes) : Except String (List Bytes) :=
  match file with
  | none => .error "open: sigfile"
  | some content => .ok (readEntries content)

/-! ## The sampling loop of `main` -/

/-- The generator `rng` (`*rand.Rand`): `stream k` is the value its `k`-th
coming call of `Intn` returns. The field `bounds` is a ghost record of the
arguments of the calls made so far; it is not program state. -/
structure Rand where
  stream : Nat → Int
  bounds : List Int

/-- Go `rng.Intn(n)`: panics when `n <= 0`, otherwise returns the next value of
the generator and advances it. -/
def Rand.Intn (rng : Rand) (n : Int) : Except String (Int × Rand) :=
  if n ≤ 0 then .error "invalid argument to Intn"
  else .ok (rng.stream 0, { stream := fun k => rng.stream (k + 1), bounds := rng.bounds ++ [n] })

/-- The generator whose successive values are those of the list `ds`. -/
def Rand.ofDraws (ds : List Int) : Rand :=
  { stream := fun k => ds.getD k 0, bounds := [] }

/-- The variables the loop `for item := range readSignatures(sigFile)` of `main`
carries from one entry to the next: `lineno`, the builder `evals`, `signature`
and the generator. The loop never inspects an entry, so the type of entries is
a parameter; `main` uses it at `Bytes`. -/
structure Sampler (α : Type) where
  lineno : Int
  evals : List Char
  signature : α
  rng : Rand

/-- The body of the sampling loop for one entry `item`. -/
def Sampler.step {α : Type} (s : Sampler α) (item : α) : Except String (Sampler α) :=
  let lineno := s.lineno + 1
  match s.rng.Intn lineno with
  | .error e => .error e
  | .ok (d, rng) =>
    if d < 1 then
      .ok { lineno := lineno, evals := s.evals ++ ['+'], signature := item, rng := rng }
    else
      .ok { lineno := lineno, evals := s.evals ++ ['-'], signature := s.signature, rng := rng }

/-- The sampling loop over the entries received from the channel. -/
def Sampler.run {α : Type} (s : Sampler α) : List α → Except String (Sampler α)
  | [] => .ok s
  | item :: rest =>
    match s.step item with
    | .error e => .error e
    | .ok s' => s'.run rest

/-- The loop variables at the start of the loop in an iteration of `main`:
`lineno := 0`, an empty `evals`, and `signature` and `rng` as the enclosing
scope holds them. -/
def Sampler.start {α : Type} (signature : α) (rng : Rand) : Sampler α :=
  { lineno := 0, evals := [], signature := signature, rng := rng }

/-- All sequences `d_1, ..., d_n` of draws with `0 ≤ d_i < i`. -/
def drawSeqs : Nat → List (List Int)
  | 0 => [[]]
  | n + 1 => (drawSeqs n).flatMap (fun ds => (List.range (n + 1)).map (fun d : Nat => ds ++ [(d : Int)]))

/-! ## The process: `setup`, `cleanup`, `main` -/

/-- What the program sees of the operating system: the result of
`os.Stat(fifo)` (the mode bits, `none` when `Stat` fails), the content of the
pidfile (`none` when it does not exist), whether `ioutil.WriteFile(pidFile, ..)`
succeeds, and `os.Getpid()`. -/
structure World where
  fifo : Option Nat
  pidFile : Option Bytes
  pidWritable : Bool
  pid : Nat
  deriving DecidableEq, Repr

/-- Go `os.ModeNamedPipe`. -/
def ModeNamedPipe : Nat := 1 <<< 25

/-- Go `fmt.Sprintln(n)` for an integer `n ≥ 0`: its decimal digits and a
newline. -/
def Sprintln (n : Nat) : Bytes := ascii (toString n) ++ [NL]

/-- The Go function `cleanup`: `os.Remove(pidFile)`. -/
def cleanup (w : World) : World := { w with pidFile := none }

/-- The state of the running process: the world, and the variables `rng` and
`signature` of `main`; `written` records the text written to the pipe for each
connection served so far. -/
structure Proc where
  world : World
  rng : Rand
  signature : Bytes
  written : List Bytes

/-- Where a run of the process stands: still running, or terminated with an
exit status. -/
inductive Outcome where
  | running (p : Proc)
  | exited (code : Nat) (p : Proc)

/-- The exit status, if the process has terminated. -/
def Outcome.exitCode : Outcome → Option Nat
  | .running _ => none
  | .exited code _ => some code

/-- The process state of an outcome. -/
def Outcome.proc : Outcome → Proc
  | .running p => p
  | .exited _ p => p

/-- The Go function `setup`, up to the installation of the signal handler.
Every `log.Fatalf` ends the process with status 1. -/
def setup (w : World) : Except Nat World :=
  match w.fifo with
  | none => .error 1
  | some mode =>
    if mode &&& ModeNamedPipe = 0 then .error 1
    else if w.pidFile.isSome then .error 1
    else if w.pidWritable then .ok { w with pidFile := some (Sprintln w.pid) }
    else .error 1

/-- What one iteration of the loop of `main` meets: whether
`os.OpenFile(fifo, os.O_WRONLY, 0600)` succeeds, and what `os.Open(sigFile)`
finds (`none` when the file cannot be opened). -/
structure Conn where
  openOk : Bool
  sigfile : Option Bytes
  deriving DecidableEq, Repr

/-- One iteration of the `for` loop of `main`. `log.Fatal` is `os.Exit(1)`,
which runs no deferred call; a panic runs the deferred `cleanup` and ends the
process with status 2. -/
def iteration (p : Proc) (c : Conn) : Outcome :=
  if c.openOk then
    match readSignatures c.sigfile with
    | .error _ => .exited 1 p
    | .ok items =>
      match (Sampler.start p.signature p.rng).run items with
      | .error _ => .exited 2 { p with world := cleanup p.world }
      | .ok s =>
        .running { p with rng := s.rng, signature := s.signature,
                          written := p.written ++ [s.signature] }
  else .exited 1 p

/-- What happens to the running process: a reader opens the pipe (one
iteration of the loop of `main`), the goroutine started by `setup` is scheduled
and blocks on `<-c`, or `os.Interrupt` or `syscall.SIGTERM` is delivered to the
process. -/
inductive Event where
  | connect (c : Conn)
  | handlerBlocks
  | signal

/-- The process after `setup`: the loop of `main` and the signal goroutine
(`<-c; cleanup(); os.Exit(0)`), driven by a sequence of events. The flag
`waiting` tells whether the goroutine is blocked on `<-c`. `signal.Notify` has
disabled the default action of the two signals and sends on `c` without
blocking; `c` is unbuffered, so the send succeeds only when the goroutine is
blocked on `<-c`, and otherwise the signal is dropped and the process goes
on. -/
def serve (waiting : Bool) (p : Proc) : List Event → Outcome
  | [] => .running p
  | .handlerBlocks :: rest => serve true p rest
  | .signal :: rest =>
    if waiting then .exited 0 { p with world := cleanup p.world }
    else serve waiting p rest
  | .connect c :: rest =>
    match iteration p c with
    | .running p' => serve waiting p' rest
    | .exited code p' => .exited code p'

/-- Whether the goroutine started by `setup` is blocked on `<-c` after the
events, given whether it was before. -/
def handlerWaits (waiting : Bool) : List Event → Bool
  | [] => waiting
  | .handlerBlocks :: rest => handlerWaits true rest
  | .signal :: rest => handlerWaits waiting rest
  | .connect _ :: rest => handlerWaits waiting rest

/-- The Go function `main`, started in world `w` with a generator seeded to
`rng`, and driven by `events` once `setup` has returned; the goroutine that
`setup` has just started is not yet blocked on `<-c`. -/
def main (w : World) (rng : Rand) (events : List Event) : Outcome :=
  match setup w with
  | .error code => .exited code { world := w, rng := rng, signature := [], written := [] }
  | .ok w' => serve false { world := w', rng := rng, signature := [], written := [] } events


/-! ## Definitions used to state the theorems -/

/-- The text of a sequence of lines, each followed by a newline. -/
def unlines (ls : List Bytes) : Bytes := ls.flatMap (fun l => l ++ [NL])

/-- The text of the entries `ess`, each given by its lines and followed by a
separator line. -/
def entriesText (ess : List (List Bytes)) : Bytes :=
  ess.flatMap (fun ls => unlines ls ++ (separator ++ [NL]))

/-- The lines a scanner yields on the text of the complete lines `ls` followed
by the last line `last`, which has no newline. -/
def lineTokens : List Bytes → Bytes → List Bytes
  | [], last =>
    if last = [] then [] else if last.length < MaxScanTokenSize then [dropCR last] else []
  | l :: ls, last =>
    if l.length < MaxScanTokenSize then dropCR l :: lineTokens ls last else []

/-- The winner the sampling loop leaves, as a function of the values `f 0`,
`f 1`, ... of the generator, the winner `w` held before, and the entries. -/
def pick {α : Type} (f : Nat → Int) (w : α) : List α → α
  | [] => w
  | x :: xs => pick (fun k => f (k + 1)) (if f 0 < 1 then x else w) xs

/-- The winner the sampling loop leaves when it starts holding `init` and the
generator returns the draws `ds`, in order. -/
def winner {α : Type} (init : α) (ds : List Int) (items : List α) : Option α :=
  match (Sampler.start init (Rand.ofDraws ds)).run items with
  | .ok s => some s.signature
  | .error _ => none

/-! # Theorems -/

/-! ## Lemmas on the scanner -/

theorem unlines_nil : unlines [] = [] := rfl

theorem unlines_cons (l : Bytes) (ls : List Bytes) :
    unlines (l :: ls) = l ++ NL :: unlines ls := by
  simp [unlines]

theorem unlines_append (xs ys : List Bytes) :
    unlines (xs ++ ys) = unlines xs ++ unlines ys := by
  simp [unlines]

theorem IndexByte_of_not_mem (c : UInt8) (l : Bytes) (h : c ∉ l) : IndexByte l c = none := by
  induction l with
  | nil => rfl
  | cons b rest ih =>
    simp only [List.mem_cons, not_or] at h
    have hb : ¬ b = c := fun e => h.1 e.symm
    simp [IndexByte, hb, ih h.2]

theorem IndexByte_append_cons (c : UInt8) (l r : Bytes) (h : c ∉ l) :
    IndexByte (l ++ c :: r) c = some l.length := by
  induction l with
  | nil => simp [IndexByte]
  | cons b rest ih =>
    simp only [List.mem_cons, not_or] at h
    have hb : ¬ b = c := fun e => h.1 e.symm
    simp [IndexByte, hb, ih h.2]

theorem ScanLines_advance_pos (data : Bytes) (atEOF : Bool) (adv : Nat) (tok : Bytes)
    (h : ScanLines data atEOF = (adv, some tok)) : 1 ≤ adv := by
  unfold ScanLines at h
  split at h
  · simp at h
  · rename_i hne
    split at h
    · simp only [Prod.mk.injEq] at h
      omega
    · split at h
      · rename_i heof
        simp only [Prod.mk.injEq] at h
        simp only [heof, Bool.true_and, beq_iff_eq] at hne
        omega
      · simp at h

theorem scanTokens_nil (fuel : Nat) : scanTokens fuel [] = [] := by
  cases fuel with
  | zero => rfl
  | succ n => simp [scanTokens, ScanLines, MaxScanTokenSize]

/-- Fuel beyond `input.length + 1` does not change the tokens scanned. -/
theorem scanTokens_fuel (n : Nat) : ∀ (m : Nat) (input : Bytes),
    input.length < n → input.length < m → scanTokens n input = scanTokens m input := by
  induction n with
  | zero => intro m input h; omega
  | succ k ih =>
    intro m input hn hm
    cases m with
    | zero => omega
    | succ j =>
      cases input with
      | nil => simp [scanTokens_nil]
      | cons b rest =>
        simp only [scanTokens]
        generalize hsl : ScanLines ((b :: rest).take MaxScanTokenSize)
          (decide ((b :: rest).length < MaxScanTokenSize)) = res
        obtain ⟨adv, tok⟩ := res
        cases tok with
        | none => rfl
        | some t =>
          have hadv := ScanLines_advance_pos _ _ _ _ hsl
          have hlen : ((b :: rest).drop adv).length < (b :: rest).length := by
            simp only [List.length_drop, List.length_cons]
            omega
          simp only
          rw [ih j _ (by omega) (by omega)]

theorem scanLines_nil : scanLines [] = [] := scanTokens_nil _

theorem scanTokens_succ (fuel : Nat) (input : Bytes) :
    scanTokens (fuel + 1) input =
      match ScanLines (input.take MaxScanTokenSize)
          (decide (input.length < MaxScanTokenSize)) with
      | (advance, some token) => token :: scanTokens fuel (input.drop advance)
      | (_, none) => [] := rfl

theorem ScanLines_line (line rest : Bytes) (atEOF : Bool) (hnl : NL ∉ line) :
    ScanLines (line ++ NL :: rest) atEOF = (line.length + 1, some (dropCR line)) := by
  have h0 : ¬ (line.length + (rest.length + 1) = 0) := by omega
  have h1 : (line.length + (rest.length + 1) == 0) = false := by simp
  simp only [ScanLines, IndexByte_append_cons NL line _ hnl, List.length_append,
    List.length_cons, List.take_left', h1, Bool.and_false, Bool.false_eq_true, if_false]

theorem ScanLines_no_newline (data : Bytes) (hnl : NL ∉ data) (hne : data ≠ []) :
    ScanLines data true = (data.length, some (dropCR data)) := by
  have h0 : ¬ (data.length = 0) := fun h => hne (List.length_eq_zero.mp h)
  have h1 : (data.length == 0) = false := by simpa using h0
  simp only [ScanLines, IndexByte_of_not_mem NL _ hnl, h1, Bool.and_false,
    Bool.false_eq_true, if_false, if_true]

theorem ScanLines_more (data : Bytes) (hnl : NL ∉ data) :
    ScanLines data false = (0, none) := by
  simp only [ScanLines, IndexByte_of_not_mem NL _ hnl, Bool.false_and, Bool.false_eq_true,
    if_false]

/-- A complete line that fits the buffer is returned without its newline and
without one terminal carriage return. -/
theorem scanLines_line (line rest : Bytes) (hnl : NL ∉ line)
    (hlen : line.length < MaxScanTokenSize) :
    scanLines (line ++ NL :: rest) = dropCR line :: scanLines rest := by
  have htake : (line ++ NL :: rest).take MaxScanTokenSize =
      line ++ NL :: rest.take (MaxScanTokenSize - line.length - 1) := by
    rw [List.take_append_eq_append_take, List.take_of_length_le (Nat.le_of_lt hlen)]
    congr 1
    obtain ⟨k, hk⟩ : ∃ k, MaxScanTokenSize - line.length = k + 1 :=
      ⟨_, (Nat.succ_pred_eq_of_pos (by omega)).symm⟩
    rw [hk, List.take_succ_cons]
    congr 2
  have hd : (line ++ NL :: rest).drop (line.length + 1) = rest := by
    rw [show line ++ NL :: rest = (line ++ [NL]) ++ rest by simp]
    exact List.drop_left' (by simp)
  unfold scanLines
  rw [scanTokens_succ, htake, ScanLines_line _ _ _ hnl]
  simp only [hd]
  congr 1
  exact scanTokens_fuel _ _ _ (by simp only [List.length_append, List.length_cons]; omega)
    (by omega)

/-- A line that does not fit the buffer ends the scan (`bufio.ErrTooLong`). -/
theorem scanLines_tooLong (line rest : Bytes) (hnl : NL ∉ line)
    (hlen : MaxScanTokenSize ≤ line.length) :
    scanLines (line ++ rest) = [] := by
  have htake : (line ++ rest).take MaxScanTokenSize = line.take MaxScanTokenSize := by
    rw [List.take_append_eq_append_take]
    have : MaxScanTokenSize - line.length = 0 := by omega
    simp [this]
  have hnl2 : NL ∉ line.take MaxScanTokenSize := fun h => hnl (List.mem_of_mem_take h)
  have hlt : decide ((line ++ rest).length < MaxScanTokenSize) = false := by
    simp only [List.length_append, decide_eq_false_iff_not]
    omega
  unfold scanLines
  rw [scanTokens_succ, htake, hlt, ScanLines_more _ hnl2]

/-- A last line without newline that fits the buffer is returned at end of
file. -/
theorem scanLines_last (line : Bytes) (hnl : NL ∉ line) (hne : line ≠ [])
    (hlen : line.length < MaxScanTokenSize) :
    scanLines line = [dropCR line] := by
  have hlt : decide (line.length < MaxScanTokenSize) = true := by simpa using hlen
  unfold scanLines
  rw [scanTokens_succ, List.take_of_length_le (Nat.le_of_lt hlen), hlt,
    ScanLines_no_newline _ hnl hne]
  simp only [List.drop_length, scanTokens_nil]

theorem scanLines_eq_lineTokens (ls : List Bytes) (last : Bytes)
    (h : ∀ l ∈ ls, NL ∉ l) (hl : NL ∉ last) :
    scanLines (unlines ls ++ last) = lineTokens ls last := by
  induction ls with
  | nil =>
    simp only [unlines_nil, List.nil_append, lineTokens]
    by_cases h0 : last = []
    · simp [h0, scanLines_nil]
    · by_cases h1 : last.length < MaxScanTokenSize
      · simp [h0, h1, scanLines_last last hl h0 h1]
      · have := scanLines_tooLong last [] hl (by omega)
        simp only [List.append_nil] at this
        simp [h0, h1, this]
  | cons l ls ih =>
    have hl1 : NL ∉ l := h l (List.mem_cons_self _ _)
    have ih1 := ih (fun x hx => h x (List.mem_cons_of_mem _ hx))
    rw [unlines_cons, List.append_assoc, List.cons_append]
    by_cases h1 : l.length < MaxScanTokenSize
    · simp [lineTokens, h1, scanLines_line l _ hl1 h1, ih1]
    · simp [lineTokens, h1, scanLines_tooLong l _ hl1 (by omega)]

/-- Every text is a sequence of complete lines followed by a last line without
newline. -/
theorem exists_unlines (s : Bytes) :
    ∃ (ls : List Bytes) (last : Bytes),
      s = unlines ls ++ last ∧ (∀ l ∈ ls, NL ∉ l) ∧ NL ∉ last := by
  induction s with
  | nil => exact ⟨[], [], rfl, by simp, by simp⟩
  | cons b rest ih =>
    obtain ⟨ls, last, hs, hls, hlast⟩ := ih
    by_cases hb : b = NL
    · refine ⟨[] :: ls, last, ?_, ?_, hlast⟩
      · simp [unlines_cons, hs, hb]
      · intro l hl
        rcases List.mem_cons.mp hl with h | h
        · simp [h]
        · exact hls l h
    · cases ls with
      | nil =>
        refine ⟨[], b :: last, ?_, by simp, ?_⟩
        · simp [hs, unlines_nil]
        · intro hm
          rcases List.mem_cons.mp hm with h | h
          · exact hb h.symm
          · exact hlast h
      | cons l ls =>
        refine ⟨(b :: l) :: ls, last, ?_, ?_, hlast⟩
        · simp [hs, unlines_cons]
        · intro x hx
          rcases List.mem_cons.mp hx with h | h
          · subst h
            intro hm
            rcases List.mem_cons.mp hm with h2 | h2
            · exact hb h2.symm
            · exact hls l (List.mem_cons_self _ _) h2
          · exact hls x (List.mem_cons_of_mem _ h)

theorem lineTokens_append (xs ys : List Bytes) (last : Bytes) :
    ∃ more, lineTokens (xs ++ ys) last = lineTokens xs [] ++ more ∧
      ∀ x ∈ more, x ∈ lineTokens ys last := by
  induction xs with
  | nil => exact ⟨lineTokens ys last, by simp [lineTokens], fun x hx => hx⟩
  | cons l xs ih =>
    obtain ⟨more, hmore, hmem⟩ := ih
    by_cases h1 : l.length < MaxScanTokenSize
    · exact ⟨more, by simp [lineTokens, h1, hmore], hmem⟩
    · exact ⟨[], by simp [lineTokens, h1], by simp⟩

theorem mem_lineTokens (ls : List Bytes) (last x : Bytes) (hx : x ∈ lineTokens ls last) :
    ∃ l, l ∈ ls ++ [last] ∧ x = dropCR l := by
  induction ls with
  | nil =>
    simp only [lineTokens] at hx
    split at hx
    · simp at hx
    · split at hx
      · exact ⟨last, by simp, by simpa using hx⟩
      · simp at hx
  | cons l ls ih =>
    simp only [lineTokens] at hx
    split at hx
    · rcases List.mem_cons.mp hx with h | h
      · exact ⟨l, by simp, h⟩
      · obtain ⟨l2, hl2, hxl⟩ := ih h
        exact ⟨l2, by simp only [List.cons_append]; exact List.mem_cons_of_mem _ hl2, hxl⟩
    · simp at hx

theorem dropCR_of_not_mem (l : Bytes) (h : CR ∉ l) : dropCR l = l := by
  unfold dropCR
  split
  · rename_i hlast
    exact absurd (List.mem_of_getLast?_eq_some hlast) h
  · rfl

theorem dropCR_eq_separator (l : Bytes) (h : dropCR l = separator) :
    l = separator ∨ l = separator ++ [CR] := by
  unfold dropCR at h
  split at h
  · rename_i hlast
    right
    have := List.dropLast_append_getLast? CR hlast
    rw [h] at this
    exact this.symm
  · exact Or.inl h

/-! ## Lemmas on the loop of `readSignatures` -/

theorem Reader.step_separator (r : Reader) :
    r.step separator = { sb := [], sent := r.sent ++ [r.sb] } := by
  simp [Reader.step]

theorem Reader.foldl_lines (ls : List Bytes) (r : Reader) (h : ∀ l ∈ ls, l ≠ separator) :
    ls.foldl Reader.step r = { sb := r.sb ++ unlines ls, sent := r.sent } := by
  induction ls generalizing r with
  | nil => simp [unlines_nil]
  | cons l ls ih =>
    have hl : l ≠ separator := h l (List.mem_cons_self _ _)
    rw [List.foldl_cons, ih _ (fun x hx => h x (List.mem_cons_of_mem _ hx))]
    simp [Reader.step, hl, unlines_cons]

theorem entriesText_cons (ls : List Bytes) (ess : List (List Bytes)) :
    entriesText (ls :: ess) = unlines (ls ++ [separator]) ++ entriesText ess := by
  simp [entriesText, unlines]

theorem scanLines_unlines (ls : List Bytes) (rest : Bytes)
    (h : ∀ l ∈ ls, NL ∉ l ∧ CR ∉ l ∧ l.length < MaxScanTokenSize) :
    scanLines (unlines ls ++ rest) = ls ++ scanLines rest := by
  induction ls with
  | nil => simp [unlines_nil]
  | cons l ls ih =>
    obtain ⟨h1, h2, h3⟩ := h l (List.mem_cons_self _ _)
    rw [unlines_cons, List.append_assoc, List.cons_append, scanLines_line l _ h1 h3,
      dropCR_of_not_mem l h2, ih (fun x hx => h x (List.mem_cons_of_mem _ hx))]
    rfl

theorem foldl_entries (ess : List (List Bytes)) (r : Reader) (hr : r.sb = [])
    (h : ∀ ls ∈ ess, ∀ l ∈ ls,
      l ≠ separator ∧ NL ∉ l ∧ CR ∉ l ∧ l.length < MaxScanTokenSize) :
    ((scanLines (entriesText ess)).foldl Reader.step r).sent = r.sent ++ ess.map unlines := by
  induction ess generalizing r with
  | nil => simp [entriesText, scanLines_nil]
  | cons ls ess ih =>
    have hls := h ls (List.mem_cons_self _ _)
    have hsc : ∀ l ∈ ls ++ [separator], NL ∉ l ∧ CR ∉ l ∧ l.length < MaxScanTokenSize := by
      intro l hl
      rcases List.mem_append.mp hl with h1 | h1
      · exact (hls l h1).2
      · simp only [List.mem_singleton] at h1
        subst h1
        decide
    rw [entriesText_cons, scanLines_unlines _ _ hsc, List.append_assoc, List.foldl_append,
      Reader.foldl_lines ls r (fun l hl => (hls l hl).1), List.singleton_append,
      List.foldl_cons, Reader.step_separator,
      ih _ rfl (fun x hx => h x (List.mem_cons_of_mem _ hx))]
    simp [hr]

theorem foldl_sent_of_no_separator (more : List Bytes) (r : Reader)
    (h : ∀ x ∈ more, x ≠ separator) : (more.foldl Reader.step r).sent = r.sent := by
  rw [Reader.foldl_lines more r h]

/-! ## The entry reader: separator parsing -/

/-- C2 (as amended). Separator parsing round trip: for every list of entries,
each the concatenation of zero or more lines that are not `"%%"`, contain no
newline and no carriage return, are shorter than `bufio.MaxScanTokenSize`
(65536 bytes) and are each followed by `"\n"`, `readSignatures` on the text in
which every entry is followed by the separator line `"%%\n"` yields exactly
these entries, in order, empty entries included. -/
theorem readSignatures_roundtrip (ess : List (List Bytes))
    (h : ∀ ls ∈ ess, ∀ l ∈ ls,
      l ≠ separator ∧ NL ∉ l ∧ CR ∉ l ∧ l.length < MaxScanTokenSize) :
    readSignatures (some (entriesText ess)) = .ok (ess.map unlines) := by
  simp only [readSignatures, readEntries]
  rw [foldl_entries ess _ rfl h]
  rfl

/-- The witness of C2: `"a\nb\n%%\nc\n%%\n"` yields exactly `"a\nb\n"` and
`"c\n"`. -/
theorem readSignatures_roundtrip_witness :
    (∀ ls ∈ [[ascii "a", ascii "b"], [ascii "c"]], ∀ l ∈ ls,
      l ≠ separator ∧ NL ∉ l ∧ CR ∉ l ∧ l.length < MaxScanTokenSize) ∧
    readSignatures (some (ascii "a\nb\n%%\nc\n%%\n")) = .ok [ascii "a\nb\n", ascii "c\n"] :=
  ⟨by decide, readSignatures_roundtrip [[ascii "a", ascii "b"], [ascii "c"]] (by decide)⟩

/-- A single entry made of one line of `n ≥ 65536` bytes `'a'`: the scanner
stops at the line, which does not fit its buffer, and no entry is yielded. -/
theorem long_line_yields_nothing (n : Nat) (hn : MaxScanTokenSize ≤ n) :
    (∀ ls ∈ [[List.replicate n (97 : UInt8)]], ∀ l ∈ ls,
      l ≠ separator ∧ NL ∉ l ∧ CR ∉ l) ∧
    readSignatures (some (entriesText [[List.replicate n 97]])) = .ok [] ∧
    readSignatures (some (entriesText [[List.replicate n 97]])) ≠
      .ok ([[List.replicate n 97]].map unlines) := by
  generalize hline : List.replicate n (97 : UInt8) = line
  have hlen : line.length = n := by rw [← hline, List.length_replicate]
  have hnl : NL ∉ line := by
    intro hm
    rw [← hline] at hm
    exact absurd (List.eq_of_mem_replicate hm) (by decide)
  have hcr : CR ∉ line := by
    intro hm
    rw [← hline] at hm
    exact absurd (List.eq_of_mem_replicate hm) (by decide)
  have hsep : line ≠ separator := by
    intro he
    have h2 := congrArg List.length he
    rw [hlen] at h2
    have h3 : separator.length = 2 := rfl
    have h4 : MaxScanTokenSize = 65536 := rfl
    omega
  have hscan : scanLines (entriesText [[line]]) = [] := by
    have htext : entriesText [[line]] = line ++ (NL :: (separator ++ [NL])) := by
      simp [entriesText, unlines]
    rw [htext]
    exact scanLines_tooLong _ _ hnl (by omega)
  have hread : readSignatures (some (entriesText [[line]])) = .ok [] := by
    simp only [readSignatures, readEntries, hscan, List.foldl_nil]
  refine ⟨?_, hread, ?_⟩
  · intro ls hls l hl
    simp only [List.mem_singleton] at hls
    subst hls
    simp only [List.mem_singleton] at hl
    subst hl
    exact ⟨hsep, hnl, hcr⟩
  · rw [hread]
    simp

/-- C2 as stated fails: an entry made of one line of 65536 bytes `'a'` (not
`"%%"`, no newline, no carriage return) followed by `"\n"` and the separator
line is not yielded: the scanner stops at the line that does not fit its
buffer, and `readSignatures` yields no entry at all. -/
theorem readSignatures_roundtrip_fails_on_long_line :
    (∀ ls ∈ [[List.replicate 65536 (97 : UInt8)]], ∀ l ∈ ls,
      l ≠ separator ∧ NL ∉ l ∧ CR ∉ l) ∧
    readSignatures (some (entriesText [[List.replicate 65536 97]])) = .ok [] ∧
    readSignatures (some (entriesText [[List.replicate 65536 97]])) ≠
      .ok ([[List.replicate 65536 97]].map unlines) :=
  long_line_yields_nothing 65536 (Nat.le_refl _)

/-- C3 (as amended). Trailing unterminated block dropped: for every text `s`
that is empty or ends with `"%%\n"`, and every tail made only of lines (each
followed by `"\n"`, the last one possibly not) that are neither `"%%"` nor
`"%%\r"`, `readSignatures` yields on `s` followed by the tail exactly the
entries it yields on `s`: no line of the tail is emitted. -/
theorem trailing_block_dropped (s : Bytes) (ls : List Bytes) (last : Bytes)
    (hs : s = [] ∨ ∃ s0, s = s0 ++ (separator ++ [NL]))
    (ht : ∀ l ∈ ls ++ [last], NL ∉ l ∧ l ≠ separator ∧ l ≠ separator ++ [CR]) :
    readSignatures (some (s ++ (unlines ls ++ last))) = readSignatures (some s) := by
  have hA : ∃ A : List Bytes, s = unlines A ∧ ∀ l ∈ A, NL ∉ l := by
    rcases hs with h0 | ⟨s0, h0⟩
    · exact ⟨[], by simp [h0, unlines_nil], by simp⟩
    · obtain ⟨ls0, last0, hs0, hls0, hlast0⟩ := exists_unlines s0
      refine ⟨ls0 ++ [last0 ++ separator], ?_, ?_⟩
      · rw [h0, hs0, unlines_append]
        simp [unlines]
      · intro l hl
        rcases List.mem_append.mp hl with h1 | h1
        · exact hls0 l h1
        · simp only [List.mem_singleton] at h1
          subst h1
          intro hm
          rcases List.mem_append.mp hm with h2 | h2
          · exact hlast0 h2
          · exact absurd h2 (by decide)
  obtain ⟨A, hsA, hA⟩ := hA
  have hls : ∀ l ∈ ls, NL ∉ l := fun l hl => (ht l (List.mem_append_left _ hl)).1
  have hlast : NL ∉ last := (ht last (by simp)).1
  have h1 : scanLines s = lineTokens A [] := by
    have := scanLines_eq_lineTokens A [] hA (by simp)
    rw [List.append_nil] at this
    rw [hsA, this]
  have h2 : scanLines (s ++ (unlines ls ++ last)) = lineTokens (A ++ ls) last := by
    rw [hsA, ← List.append_assoc, ← unlines_append]
    refine scanLines_eq_lineTokens (A ++ ls) last ?_ hlast
    intro l hl
    rcases List.mem_append.mp hl with h | h
    · exact hA l h
    · exact hls l h
  obtain ⟨more, hmore, hmem⟩ := lineTokens_append A ls last
  have hno : ∀ x ∈ more, x ≠ separator := by
    intro x hx he
    obtain ⟨l, hl, hxl⟩ := mem_lineTokens ls last x (hmem x hx)
    have h3 := ht l hl
    rcases dropCR_eq_separator l (by rw [← hxl, he]) with h4 | h4
    · exact h3.2.1 h4
    · exact h3.2.2 h4
  simp only [readSignatures, readEntries]
  rw [h2, hmore, h1, List.foldl_append, foldl_sent_of_no_separator more _ hno]

/-- The witness of C3: `"a\n%%\nb\n"` yields exactly `"a\n"`. -/
theorem trailing_block_dropped_witness :
    (ascii "a\n%%\n" = [] ∨ ∃ s0, ascii "a\n%%\n" = s0 ++ (separator ++ [NL])) ∧
    (∀ l ∈ [ascii "b"] ++ [[]], NL ∉ l ∧ l ≠ separator ∧ l ≠ separator ++ [CR]) ∧
    readSignatures (some (ascii "a\n%%\n" ++ (unlines [ascii "b"] ++ []))) =
      readSignatures (some (ascii "a\n%%\n")) ∧
    readSignatures (some (ascii "a\n%%\nb\n")) = .ok [ascii "a\n"] :=
  ⟨Or.inr ⟨ascii "a\n", by decide⟩, by decide,
   trailing_block_dropped (ascii "a\n%%\n") [ascii "b"] []
     (Or.inr ⟨ascii "a\n", by decide⟩) (by decide), by decide⟩

/-- C3 as stated fails: after `s = "a\n%%\n"`, the tail `"%%\r\n"` consists of
one line, `"%%\r"`, which is not equal to `"%%"`; the scanner drops the
carriage return, so the line ends an (empty) entry, and `readSignatures` yields
one entry more than on `s`. -/
theorem trailing_block_dropped_fails_on_cr :
    (ascii "a\n%%\n" = [] ∨ ∃ s0, ascii "a\n%%\n" = s0 ++ (separator ++ [NL])) ∧
    (∀ l ∈ [ascii "%%\r"], NL ∉ l ∧ l ≠ separator) ∧
    readSignatures (some (ascii "a\n%%\n" ++ unlines [ascii "%%\r"])) = .ok [ascii "a\n", []] ∧
    readSignatures (some (ascii "a\n%%\n")) = .ok [ascii "a\n"] ∧
    readSignatures (some (ascii "a\n%%\n" ++ unlines [ascii "%%\r"])) ≠
      readSignatures (some (ascii "a\n%%\n")) :=
  ⟨Or.inr ⟨ascii "a\n", by decide⟩, by decide, by decide, by decide, by decide⟩

/-! ## Lemmas on the sampling loop -/

theorem Sampler.step_eq {α : Type} (s : Sampler α) (item : α) (h : 0 ≤ s.lineno) :
    s.step item = .ok
      { lineno := s.lineno + 1
        evals := s.evals ++ [if s.rng.stream 0 < 1 then '+' else '-']
        signature := if s.rng.stream 0 < 1 then item else s.signature
        rng := { stream := fun k => s.rng.stream (k + 1)
                 bounds := s.rng.bounds ++ [s.lineno + 1] } } := by
  have hpos : ¬ (s.lineno + 1 ≤ 0) := by omega
  unfold Sampler.step Rand.Intn
  simp only [hpos, if_false]
  split <;> rfl

/-- The sampling loop never fails, and its final variables are determined as
follows. -/
theorem Sampler.run_spec {α : Type} (items : List α) :
    ∀ (s : Sampler α), 0 ≤ s.lineno →
    ∃ s', s.run items = .ok s' ∧
      s'.lineno = s.lineno + (items.length : Int) ∧
      s'.rng.stream = (fun k => s.rng.stream (k + items.length)) ∧
      s'.rng.bounds = s.rng.bounds ++
        (List.range items.length).map (fun i : Nat => s.lineno + 1 + (i : Int)) ∧
      s'.evals.length = s.evals.length + items.length ∧
      (∀ c ∈ s'.evals, c ∈ s.evals ∨ c = '+' ∨ c = '-') ∧
      s'.signature = pick s.rng.stream s.signature items := by
  induction items with
  | nil =>
    intro s _
    exact ⟨s, rfl, by simp, by simp, by simp, by simp, fun c hc => Or.inl hc, rfl⟩
  | cons x xs ih =>
    intro s h
    have hstep := Sampler.step_eq s x h
    obtain ⟨s', hrun, hline, hstream, hbounds, hevals, hchars, hsig⟩ :=
      ih { lineno := s.lineno + 1
           evals := s.evals ++ [if s.rng.stream 0 < 1 then '+' else '-']
           signature := if s.rng.stream 0 < 1 then x else s.signature
           rng := { stream := fun k => s.rng.stream (k + 1)
                    bounds := s.rng.bounds ++ [s.lineno + 1] } }
        (show (0 : Int) ≤ s.lineno + 1 by omega)
    dsimp only at hline hstream hbounds hevals hchars hsig
    refine ⟨s', ?_, ?_, ?_, ?_, ?_, ?_, ?_⟩
    · simp only [Sampler.run, hstep]
      exact hrun
    · rw [hline]
      simp only [List.length_cons, Nat.cast_add, Nat.cast_one]
      omega
    · rw [hstream]
      funext k
      simp only [List.length_cons]
      congr 1
    · rw [hbounds, List.length_cons, List.range_succ_eq_map, List.map_cons, List.map_map,
        List.append_assoc]
      congr 1
      rw [List.singleton_append]
      congr 1
      · simp
      · apply List.map_congr_left
        intro i _
        simp only [Function.comp, Nat.cast_succ]
        omega
    · rw [hevals]
      simp only [List.length_append, List.length_cons, List.length_nil]
      omega
    · intro c hc
      rcases hchars c hc with h1 | h1
      · rcases List.mem_append.mp h1 with h2 | h2
        · exact Or.inl h2
        · simp only [List.mem_singleton] at h2
          right
          rw [h2]
          split
          · exact Or.inl rfl
          · exact Or.inr rfl
      · exact Or.inr h1
    · rw [hsig]
      rfl

theorem pick_of_no_zero {α : Type} (items : List α) :
    ∀ (f : Nat → Int) (w : α), (∀ i, i < items.length → ¬ f i < 1) → pick f w items = w := by
  induction items with
  | nil => intro f w _; rfl
  | cons x xs ih =>
    intro f w h
    have h0 : ¬ f 0 < 1 := h 0 (by simp)
    simp only [pick, h0, if_false]
    exact ih _ w (fun i hi => h (i + 1) (by simpa using hi))

theorem pick_last_zero {α : Type} (items : List α) :
    ∀ (f : Nat → Int) (w : α), (∃ i, i < items.length ∧ f i < 1) →
    ∃ m, f m < 1 ∧ (∀ j, m < j → j < items.length → ¬ f j < 1) ∧
      items[m]? = some (pick f w items) := by
  induction items with
  | nil =>
    intro f w h
    obtain ⟨i, hi, _⟩ := h
    simp at hi
  | cons x xs ih =>
    intro f w h
    by_cases h2 : ∃ i, i < xs.length ∧ f (i + 1) < 1
    · obtain ⟨m, hm, hlast, hget⟩ := ih (fun k => f (k + 1)) (if f 0 < 1 then x else w) h2
      refine ⟨m + 1, hm, ?_, ?_⟩
      · intro j hj hjlen
        obtain ⟨j2, rfl⟩ : ∃ j2, j = j2 + 1 := ⟨j - 1, by omega⟩
        exact hlast j2 (by omega) (by simpa using hjlen)
      · simpa [pick] using hget
    · have hno : ∀ i, i < xs.length → ¬ f (i + 1) < 1 := fun i hi hf => h2 ⟨i, hi, hf⟩
      obtain ⟨i, hi, hfi⟩ := h
      have hi0 : i = 0 := by
        rcases Nat.eq_zero_or_pos i with h0 | h0
        · exact h0
        · obtain ⟨i2, rfl⟩ : ∃ i2, i = i2 + 1 := ⟨i - 1, by omega⟩
          exact absurd hfi (hno i2 (by simpa using hi))
      subst hi0
      refine ⟨0, hfi, ?_, ?_⟩
      · intro j hj hjlen
        obtain ⟨j2, rfl⟩ : ∃ j2, j = j2 + 1 := ⟨j - 1, by omega⟩
        exact hno j2 (by simpa using hjlen)
      · simp only [pick, hfi, if_true]
        rw [pick_of_no_zero xs _ x hno]
        simp

theorem pick_mem_or {α : Type} (items : List α) :
    ∀ (f : Nat → Int) (w : α), pick f w items = w ∨ pick f w items ∈ items := by
  induction items with
  | nil => intro f w; exact Or.inl rfl
  | cons x xs ih =>
    intro f w
    rcases ih (fun k => f (k + 1)) (if f 0 < 1 then x else w) with h | h
    · simp only [pick, h]
      split
      · exact Or.inr (List.mem_cons_self _ _)
      · exact Or.inl rfl
    · exact Or.inr (List.mem_cons_of_mem _ h)

/-- An iteration of `main` whose pipe opens and whose source is readable serves
the connection: it writes the winner `pick` determines. -/
theorem iteration_served (p : Proc) (c : Conn) (items : List Bytes)
    (hopen : c.openOk = true) (hread : readSignatures c.sigfile = .ok items) :
    ∃ s, (Sampler.start p.signature p.rng).run items = .ok s ∧
      s.signature = pick p.rng.stream p.signature items ∧
      iteration p c = .running { p with rng := s.rng, signature := s.signature,
                                        written := p.written ++ [s.signature] } := by
  obtain ⟨s, hrun, _, _, _, _, _, hsig⟩ :=
    Sampler.run_spec items (Sampler.start p.signature p.rng) (le_refl _)
  refine ⟨s, hrun, hsig, ?_⟩
  simp only [iteration, hopen, if_true, hread, hrun]

/-! ## The sampling loop: theorems -/

/-- C10. The random draw never fails: on every stream of `N` entries the
sampling loop ends without panic; it calls `rng.Intn` exactly `N` times, the
`i`-th call with bound `i` (the bounds are `1, 2, ..., N`, all at least 1), the
counter ends at `N`, and the generator has advanced by `N` values. -/
theorem intn_never_panics {α : Type} (signature : α) (rng : Rand) (items : List α) :
    ∃ s, (Sampler.start signature rng).run items = .ok s ∧
      s.rng.bounds = rng.bounds ++ (List.range items.length).map (fun i : Nat => (i : Int) + 1) ∧
      (∀ n ∈ (List.range items.length).map (fun i : Nat => (i : Int) + 1), (1 : Int) ≤ n) ∧
      (s.rng.bounds.length = rng.bounds.length + items.length) ∧
      s.lineno = items.length ∧
      s.rng.stream = fun k => rng.stream (k + items.length) := by
  obtain ⟨s, hrun, hline, hstream, hbounds, _, _, _⟩ :=
    Sampler.run_spec items (Sampler.start signature rng) (le_refl _)
  have hb : s.rng.bounds =
      rng.bounds ++ (List.range items.length).map (fun i : Nat => (i : Int) + 1) := by
    rw [hbounds]
    simp only [Sampler.start]
    congr 1
    apply List.map_congr_left
    intro i _
    omega
  refine ⟨s, hrun, hb, ?_, ?_, ?_, hstream⟩
  · intro n hn
    obtain ⟨i, _, rfl⟩ := List.mem_map.mp hn
    omega
  · rw [hb]
    simp
  · rw [hline]
    simp [Sampler.start]

/-- C9. Winner is the last zero draw: for every connection whose stream
`e_1..e_N` is not empty and every generator whose `i`-th draw `d_i` satisfies
`0 ≤ d_i < i`, there is a greatest index `m` with `d_m = 0`, and the text
written for the connection is `e_m`, whatever winner was left over from an
earlier connection. (Indices are counted from 0 here: the draw at index `i` is
below `i + 1`.) -/
theorem winner_is_last_zero_draw (p : Proc) (c : Conn) (items : List Bytes)
    (hopen : c.openOk = true) (hread : readSignatures c.sigfile = .ok items)
    (hne : items ≠ [])
    (hdraws : ∀ i, i < items.length → 0 ≤ p.rng.stream i ∧ p.rng.stream i < (i : Int) + 1) :
    ∃ m e, items[m]? = some e ∧ p.rng.stream m = 0 ∧
      (∀ j, m < j → j < items.length → p.rng.stream j ≠ 0) ∧
      ∀ stale : Bytes, ∃ p', iteration { p with signature := stale } c = .running p' ∧
        p'.written = p.written ++ [e] ∧ p'.signature = e := by
  have hlen : 0 < items.length := List.length_pos.mpr hne
  have h0 : p.rng.stream 0 < 1 := by
    have := hdraws 0 hlen
    simp only [Nat.cast_zero, zero_add] at this
    exact this.2
  obtain ⟨m, hm, hlast, hget⟩ := pick_last_zero items p.rng.stream ([] : Bytes) ⟨0, hlen, h0⟩
  have hmlen : m < items.length := by
    rcases Nat.lt_or_ge m items.length with h | h
    · exact h
    · rw [List.getElem?_eq_none h] at hget
      simp at hget
  refine ⟨m, pick p.rng.stream ([] : Bytes) items, hget, ?_, ?_, ?_⟩
  · have := (hdraws m hmlen).1
    omega
  · intro j hj hjlen hz
    exact hlast j hj hjlen (by omega)
  · intro stale
    obtain ⟨s, _, hsig, hiter⟩ := iteration_served { p with signature := stale } c items hopen hread
    have hindep : pick p.rng.stream stale items = pick p.rng.stream ([] : Bytes) items := by
      obtain ⟨m2, hm2, hlast2, hget2⟩ := pick_last_zero items p.rng.stream stale ⟨0, hlen, h0⟩
      have hmm : m2 = m := by
        rcases Nat.lt_trichotomy m2 m with h | h | h
        · have hm2len : m2 < items.length := by omega
          exact absurd hm (hlast2 m h hmlen)
        · exact h
        · have hm2len : m2 < items.length := by
            rcases Nat.lt_or_ge m2 items.length with h3 | h3
            · exact h3
            · rw [List.getElem?_eq_none h3] at hget2
              simp at hget2
          exact absurd hm2 (hlast m2 h hm2len)
      rw [hmm, hget] at hget2
      exact (Option.some.inj hget2).symm
    simp only at hsig
    rw [hindep] at hsig
    refine ⟨_, hiter, ?_, ?_⟩
    · simp only [hsig]
    · simp only [hsig]

/-- The witness of C9: three entries and the draws 0, 1, 0; the last zero draw
is the third, and `"c\n"` is written, whatever winner was held before. -/
theorem winner_is_last_zero_draw_witness :
    (∀ i, i < [ascii "a\n", ascii "b\n", ascii "c\n"].length →
      0 ≤ (Rand.ofDraws [0, 1, 0]).stream i ∧ (Rand.ofDraws [0, 1, 0]).stream i < (i : Int) + 1) ∧
    ∃ m e, [ascii "a\n", ascii "b\n", ascii "c\n"][m]? = some e ∧
      (Rand.ofDraws [0, 1, 0]).stream m = 0 ∧
      (∀ j, m < j → j < [ascii "a\n", ascii "b\n", ascii "c\n"].length →
        (Rand.ofDraws [0, 1, 0]).stream j ≠ 0) ∧
      ∀ stale : Bytes, ∃ p',
        iteration
          { ({ world := ⟨some ModeNamedPipe, some (ascii "42\n"), true, 42⟩,
               rng := Rand.ofDraws [0, 1, 0], signature := [], written := [] } : Proc)
            with signature := stale }
          ⟨true, some (ascii "a\n%%\nb\n%%\nc\n%%\n")⟩ = .running p' ∧
        p'.written = [] ++ [e] ∧ p'.signature = e :=
  ⟨by decide,
   winner_is_last_zero_draw
     { world := ⟨some ModeNamedPipe, some (ascii "42\n"), true, 42⟩,
       rng := Rand.ofDraws [0, 1, 0], signature := [], written := [] }
     ⟨true, some (ascii "a\n%%\nb\n%%\nc\n%%\n")⟩
     [ascii "a\n", ascii "b\n", ascii "c\n"] rfl (by decide) (by decide) (by decide)⟩

/-- C4. Empty stream keeps the stale winner: when the pipe opens and the entry
stream of the connection is empty, the iteration ends without error, makes no
draw (the generator is unchanged), leaves `signature` unchanged and writes
exactly the winner held before the iteration; on the first iteration of `main`
that is the empty string. -/
theorem empty_stream_keeps_stale_winner (p : Proc) (c : Conn)
    (hopen : c.openOk = true) (hempty : readSignatures c.sigfile = .ok []) :
    iteration p c = .running { p with written := p.written ++ [p.signature] } ∧
    ∀ (w w' : World) (rng : Rand), setup w = .ok w' →
      main w rng [.connect c] =
        .running { world := w', rng := rng, signature := [], written := [[]] } := by
  have hiter : ∀ q : Proc,
      iteration q c = .running { q with written := q.written ++ [q.signature] } := by
    intro q
    simp only [iteration, hopen, if_true, hempty, Sampler.run, Sampler.start]
  refine ⟨hiter p, ?_⟩
  intro w w' rng hsetup
  simp only [main, hsetup, serve, hiter]
  rfl

/-- The witness of C4: a source without separator line yields no entry, and
the winner `"old\n"` of an earlier connection is written again. -/
theorem empty_stream_keeps_stale_winner_witness :
    (⟨true, some (ascii "a\nb\n")⟩ : Conn).openOk = true ∧
    readSignatures (⟨true, some (ascii "a\nb\n")⟩ : Conn).sigfile = .ok [] ∧
    (iteration
        { world := ⟨some ModeNamedPipe, some (ascii "42\n"), true, 42⟩,
          rng := Rand.ofDraws [], signature := ascii "old\n", written := [ascii "old\n"] }
        ⟨true, some (ascii "a\nb\n")⟩ =
      .running
        { ({ world := ⟨some ModeNamedPipe, some (ascii "42\n"), true, 42⟩,
             rng := Rand.ofDraws [], signature := ascii "old\n",
             written := [ascii "old\n"] } : Proc)
          with written := [ascii "old\n"] ++ [ascii "old\n"] }) :=
  ⟨rfl, by decide,
   (empty_stream_keeps_stale_winner
      { world := ⟨some ModeNamedPipe, some (ascii "42\n"), true, 42⟩,
        rng := Rand.ofDraws [], signature := ascii "old\n", written := [ascii "old\n"] }
      ⟨true, some (ascii "a\nb\n")⟩ rfl (by decide)).1⟩

theorem sampler_state_aux (signature : Bytes) (rng : Rand) (items : List Bytes) :
    ∃ s, (Sampler.start signature rng).run items = .ok s ∧
      s.lineno = items.length ∧
      s.evals.length = items.length ∧
      (∀ ch ∈ s.evals, ch = '+' ∨ ch = '-') ∧
      (s.signature = signature ∨ s.signature ∈ items) := by
  obtain ⟨s, hrun, hline, _, _, hevals, hchars, hsig⟩ :=
    Sampler.run_spec items (Sampler.start signature rng) (le_refl _)
  refine ⟨s, hrun, ?_, ?_, ?_, ?_⟩
  · rw [hline]
    simp [Sampler.start]
  · rw [hevals]
    simp [Sampler.start]
  · intro ch hch
    rcases hchars ch hch with h | h
    · simp [Sampler.start] at h
    · exact h
  · rw [hsig]
    exact pick_mem_or items _ _

/-- C7 (as amended). Sampler state: besides the generator, the sampling loop
carries from one entry to the next the running count, the current candidate
and the builder `evals`, which holds one character (`'+'` or `'-'`) per entry
consumed; after `N` entries the count is `N`, `evals` has exactly `N`
characters, and the candidate is the winner held before the loop or one of the
entries. No entry other than the candidate is retained. -/
theorem sampler_state (signature : Bytes) (rng : Rand) (items : List Bytes) :
    ∃ s, (Sampler.start signature rng).run items = .ok s ∧
      s.lineno = items.length ∧
      s.evals.length = items.length ∧
      (∀ ch ∈ s.evals, ch = '+' ∨ ch = '-') ∧
      (s.signature = signature ∨ s.signature ∈ items) :=
  sampler_state_aux signature rng items

/-- C7 as stated fails: the loop also carries the builder `evals`. On the two
entries `"a\n"`, `"b\n"` with draws 0, 1 it ends holding `"+-"`, and no bound
independent of the stream limits the length of `evals`. -/
theorem sampler_state_grows :
    (∃ s, (Sampler.start ([] : Bytes) (Rand.ofDraws [0, 1])).run [ascii "a\n", ascii "b\n"] = .ok s ∧
      s.evals = ['+', '-']) ∧
    ¬ ∃ B : Nat, ∀ (signature : Bytes) (rng : Rand) (items : List Bytes) (s : Sampler Bytes),
      (Sampler.start signature rng).run items = .ok s → s.evals.length ≤ B := by
  constructor
  · exact ⟨_, rfl, rfl⟩
  · rintro ⟨B, hB⟩
    obtain ⟨s, hrun, _, hlen, _, _⟩ :=
      sampler_state_aux ([] : Bytes) (Rand.ofDraws []) (List.replicate (B + 1) [])
    have := hB _ _ _ s hrun
    rw [hlen, List.length_replicate] at this
    omega

/-! ## The process lifecycle -/

theorem setup_ok_pidFile (w w' : World) (h : setup w = .ok w') :
    w.pidFile = none ∧ w' = { w with pidFile := some (Sprintln w.pid) } := by
  unfold setup at h
  split at h
  · simp at h
  · split at h
    · simp at h
    · split at h
      · simp at h
      · rename_i hpid
        split at h
        · simp only [Except.ok.injEq] at h
          refine ⟨?_, h.symm⟩
          cases hp : w.pidFile with
          | none => rfl
          | some x => simp [hp] at hpid
        · simp at h

theorem iteration_running_world (p p' : Proc) (c : Conn) (h : iteration p c = .running p') :
    p'.world = p.world := by
  unfold iteration at h
  split at h
  · split at h
    · simp at h
    · split at h
      · simp at h
      · simp only [Outcome.running.injEq] at h
        rw [← h]
  · simp at h

theorem serve_running_world (events : List Event) :
    ∀ (waiting : Bool) (p p' : Proc),
      serve waiting p events = .running p' → p'.world = p.world := by
  induction events with
  | nil =>
    intro waiting p p' h
    simp only [serve, Outcome.running.injEq] at h
    rw [h]
  | cons e rest ih =>
    intro waiting p p' h
    cases e with
    | handlerBlocks =>
      simp only [serve] at h
      exact ih true p p' h
    | signal =>
      simp only [serve] at h
      cases waiting with
      | true => simp at h
      | false => exact ih false p p' (by simpa using h)
    | connect c =>
      simp only [serve] at h
      cases hit : iteration p c with
      | running q =>
        rw [hit] at h
        rw [ih waiting q p' h, iteration_running_world p q c hit]
      | exited code q =>
        rw [hit] at h
        simp at h

theorem serve_append_running (pre : List Event) :
    ∀ (waiting : Bool) (p p' : Proc) (rest : List Event),
      serve waiting p pre = .running p' →
      serve waiting p (pre ++ rest) = serve (handlerWaits waiting pre) p' rest := by
  induction pre with
  | nil =>
    intro waiting p p' rest h
    simp only [serve, Outcome.running.injEq] at h
    rw [h]
    rfl
  | cons e pre ih =>
    intro waiting p p' rest h
    cases e with
    | handlerBlocks =>
      simp only [serve, List.cons_append, handlerWaits] at h ⊢
      exact ih true p p' rest h
    | signal =>
      cases waiting with
      | true => simp [serve] at h
      | false =>
        simp only [serve, List.cons_append, handlerWaits, Bool.false_eq_true, if_false] at h ⊢
        exact ih false p p' rest h
    | connect c =>
      simp only [serve, List.cons_append, handlerWaits] at h ⊢
      cases hit : iteration p c with
      | running q =>
        rw [hit] at h
        simp only
        exact ih waiting q p' rest h
      | exited code q =>
        rw [hit] at h
        simp at h

/-- Once the goroutine started by `setup` is blocked on `<-c`, a signal
delivered to the running process ends it with exit status 0 and the pidfile,
which was in place, removed. -/
theorem shutdown_when_handler_waits (w : World) (rng : Rand) (pre rest : List Event)
    (p : Proc) (hrun : main w rng pre = .running p)
    (hwait : handlerWaits false pre = true) :
    p.world.pidFile = some (Sprintln w.pid) ∧
    main w rng (pre ++ .signal :: rest) = .exited 0 { p with world := cleanup p.world } := by
  unfold main at hrun
  cases hsetup : setup w with
  | error code =>
    rw [hsetup] at hrun
    simp at hrun
  | ok w' =>
    rw [hsetup] at hrun
    simp only at hrun
    have hworld := serve_running_world pre _ _ p hrun
    simp only at hworld
    refine ⟨?_, ?_⟩
    · rw [hworld, (setup_ok_pidFile w w' hsetup).2]
    · simp only [main, hsetup]
      rw [serve_append_running pre _ _ p _ hrun, hwait]
      rfl

/-- A signal delivered while the goroutine started by `setup` is not blocked on
`<-c` changes nothing: the process goes on as if it had not been sent. -/
theorem signal_dropped_when_handler_not_waiting (p : Proc) (rest : List Event) :
    serve false p (.signal :: rest) = serve false p rest := by
  simp [serve]

/-- C5. Single-instance enforcement: in every world in which the pidfile
exists, `setup` ends the process with exit status 1; the world, and with it the
pidfile, is left as it was, and no connection is served whatever happens
next. -/
theorem single_instance_enforced (w : World) (rng : Rand) (events : List Event)
    (h : w.pidFile.isSome = true) :
    setup w = .error 1 ∧
    main w rng events = .exited 1 { world := w, rng := rng, signature := [], written := [] } ∧
    (main w rng events).exitCode = some 1 ∧
    (main w rng events).proc.world.pidFile = w.pidFile ∧
    (main w rng events).proc.written = [] := by
  have hsetup : setup w = .error 1 := by
    unfold setup
    split
    · rfl
    · split
      · rfl
      · simp [h]
  have hmain : main w rng events =
      .exited 1 { world := w, rng := rng, signature := [], written := [] } := by
    simp only [main, hsetup]
  refine ⟨hsetup, hmain, ?_, ?_, ?_⟩ <;> rw [hmain] <;> rfl

/-- The witness of C5: a second instance started while the pidfile of process
7 exists. -/
theorem single_instance_enforced_witness :
    (⟨some ModeNamedPipe, some (ascii "7\n"), true, 42⟩ : World).pidFile.isSome = true ∧
    (main ⟨some ModeNamedPipe, some (ascii "7\n"), true, 42⟩ (Rand.ofDraws [])
        [.connect ⟨true, some (ascii "a\n%%\n")⟩]).exitCode = some 1 ∧
    (main ⟨some ModeNamedPipe, some (ascii "7\n"), true, 42⟩ (Rand.ofDraws [])
        [.connect ⟨true, some (ascii "a\n%%\n")⟩]).proc.world.pidFile = some (ascii "7\n") ∧
    (main ⟨some ModeNamedPipe, some (ascii "7\n"), true, 42⟩ (Rand.ofDraws [])
        [.connect ⟨true, some (ascii "a\n%%\n")⟩]).proc.written = [] :=
  ⟨rfl,
   (single_instance_enforced ⟨some ModeNamedPipe, some (ascii "7\n"), true, 42⟩
      (Rand.ofDraws []) [.connect ⟨true, some (ascii "a\n%%\n")⟩] rfl).2.2⟩

/-- C6 fails on the code: process 42 starts with the pipe in place and no
pidfile, writes its pidfile, and then meets a fatal error: an unreadable source
file, or a failing open of the pipe. `log.Fatal` ends the process with status 1
without running the deferred `cleanup`, and the pidfile `"42\n"` is left
behind; the signal path, once the goroutine is blocked on `<-c`, does remove
it. -/
theorem fatal_exit_leaves_pidfile :
    (main ⟨some ModeNamedPipe, none, true, 42⟩ (Rand.ofDraws [])
        [.connect ⟨true, none⟩]).exitCode = some 1 ∧
    (main ⟨some ModeNamedPipe, none, true, 42⟩ (Rand.ofDraws [])
        [.connect ⟨true, none⟩]).proc.world.pidFile = some (ascii "42\n") ∧
    (main ⟨some ModeNamedPipe, none, true, 42⟩ (Rand.ofDraws [])
        [.connect ⟨false, some (ascii "a\n%%\n")⟩]).exitCode = some 1 ∧
    (main ⟨some ModeNamedPipe, none, true, 42⟩ (Rand.ofDraws [])
        [.connect ⟨false, some (ascii "a\n%%\n")⟩]).proc.world.pidFile = some (ascii "42\n") ∧
    (main ⟨some ModeNamedPipe, none, true, 42⟩ (Rand.ofDraws [])
        [.handlerBlocks, .signal]).exitCode = some 0 ∧
    (main ⟨some ModeNamedPipe, none, true, 42⟩ (Rand.ofDraws [])
        [.handlerBlocks, .signal]).proc.world.pidFile = none := by
  decide

/-- C8 fails on the code: process 42 has come through `setup` (pipe in place,
pidfile `"42\n"` written) and is running; a signal is delivered before the
goroutine started by `setup` has blocked on `<-c`. The send on the unbuffered
channel is dropped: the process is still running, has not exited, and its
pidfile stays; it goes on to serve the next reader. The same signal delivered
after the goroutine has blocked on `<-c` ends the process with status 0 and the
pidfile removed. -/
theorem signal_before_handler_waits_is_dropped :
    (main ⟨some ModeNamedPipe, none, true, 42⟩ (Rand.ofDraws [])
        [.signal]).exitCode = none ∧
    (main ⟨some ModeNamedPipe, none, true, 42⟩ (Rand.ofDraws [])
        [.signal]).proc.world.pidFile = some (ascii "42\n") ∧
    (main ⟨some ModeNamedPipe, none, true, 42⟩ (Rand.ofDraws [0])
        [.signal, .connect ⟨true, some (ascii "a\n%%\n")⟩]).exitCode = none ∧
    (main ⟨some ModeNamedPipe, none, true, 42⟩ (Rand.ofDraws [0])
        [.signal, .connect ⟨true, some (ascii "a\n%%\n")⟩]).proc.written = [ascii "a\n"] ∧
    (main ⟨some ModeNamedPipe, none, true, 42⟩ (Rand.ofDraws [0])
        [.signal, .connect ⟨true, some (ascii "a\n%%\n")⟩]).proc.world.pidFile =
      some (ascii "42\n") ∧
    (main ⟨some ModeNamedPipe, none, true, 42⟩ (Rand.ofDraws [])
        [.handlerBlocks, .signal]).exitCode = some 0 ∧
    (main ⟨some ModeNamedPipe, none, true, 42⟩ (Rand.ofDraws [])
        [.handlerBlocks, .signal]).proc.world.pidFile = none := by
  decide

/-! ## Uniform selection -/

theorem winner_eq {α : Type} (init : α) (ds : List Int) (items : List α) :
    winner init ds items = some (pick (Rand.ofDraws ds).stream init items) := by
  obtain ⟨s, hrun, _, _, _, _, _, hsig⟩ :=
    Sampler.run_spec items (Sampler.start init (Rand.ofDraws ds)) (le_refl _)
  simp only [winner, hrun, hsig]
  rfl

theorem pick_snoc {α : Type} (xs : List α) :
    ∀ (f : Nat → Int) (w x : α),
      pick f w (xs ++ [x]) = if f xs.length < 1 then x else pick f w xs := by
  induction xs with
  | nil => intro f w x; rfl
  | cons y ys ih =>
    intro f w x
    simp only [List.cons_append, pick, List.length_cons]
    exact ih _ _ x

theorem pick_congr {α : Type} (xs : List α) :
    ∀ (f g : Nat → Int) (w : α), (∀ i, i < xs.length → f i = g i) →
      pick f w xs = pick g w xs := by
  induction xs with
  | nil => intro f g w _; rfl
  | cons y ys ih =>
    intro f g w h
    simp only [pick]
    rw [h 0 (by simp)]
    exact ih _ _ _ (fun i hi => h (i + 1) (by simpa using hi))

theorem ofDraws_stream_append_left (ds : List Int) (d : Int) (i : Nat) (h : i < ds.length) :
    (Rand.ofDraws (ds ++ [d])).stream i = (Rand.ofDraws ds).stream i := by
  simp only [Rand.ofDraws, List.getD_eq_getElem?_getD, List.getElem?_append_left h]

theorem ofDraws_stream_append_last (ds : List Int) (d : Int) :
    (Rand.ofDraws (ds ++ [d])).stream ds.length = d := by
  simp [Rand.ofDraws]

theorem winner_snoc {α : Type} (init : α) (ds : List Int) (d : Int) (xs : List α) (x : α)
    (h : ds.length = xs.length) :
    winner init (ds ++ [d]) (xs ++ [x]) =
      some (if d < 1 then x else pick (Rand.ofDraws ds).stream init xs) := by
  rw [winner_eq, pick_snoc, ← h, ofDraws_stream_append_last,
    pick_congr xs (Rand.ofDraws (ds ++ [d])).stream (Rand.ofDraws ds).stream init
      (fun i hi => ofDraws_stream_append_left ds d i (by omega))]

theorem drawSeqs_succ (n : Nat) :
    drawSeqs (n + 1) =
      (drawSeqs n).flatMap (fun ds => (List.range (n + 1)).map (fun d : Nat => ds ++ [(d : Int)])) :=
  rfl

theorem length_of_mem_drawSeqs (n : Nat) : ∀ ds, ds ∈ drawSeqs n → ds.length = n := by
  induction n with
  | zero =>
    intro ds h
    simp only [drawSeqs, List.mem_singleton] at h
    simp [h]
  | succ n ih =>
    intro ds h
    rw [drawSeqs_succ, List.mem_flatMap] at h
    obtain ⟨ds2, hds2, hmem⟩ := h
    obtain ⟨d, _, rfl⟩ := List.mem_map.mp hmem
    simp [ih ds2 hds2]

/-- The list `drawSeqs n` holds exactly the sequences `d_1, ..., d_n` with
`0 ≤ d_i < i` (at index `i`, counted from 0: `0 ≤ d < i + 1`). -/
theorem mem_drawSeqs (n : Nat) : ∀ ds : List Int,
    ds ∈ drawSeqs n ↔
      ds.length = n ∧ ∀ (i : Nat) (d : Int), ds[i]? = some d → 0 ≤ d ∧ d < (i : Int) + 1 := by
  induction n with
  | zero =>
    intro ds
    simp only [drawSeqs, List.mem_singleton, List.length_eq_zero]
    constructor
    · intro h
      subst h
      exact ⟨rfl, by simp⟩
    · exact fun h => h.1
  | succ n ih =>
    intro ds
    rw [drawSeqs_succ, List.mem_flatMap]
    constructor
    · rintro ⟨ds2, hds2, hmem⟩
      obtain ⟨d, hd, rfl⟩ := List.mem_map.mp hmem
      obtain ⟨hlen, hval⟩ := (ih ds2).mp hds2
      refine ⟨by simp [hlen], ?_⟩
      intro i e he
      rcases Nat.lt_or_ge i ds2.length with hi | hi
      · rw [List.getElem?_append_left hi] at he
        exact hval i e he
      · rw [List.getElem?_append_right hi] at he
        have hi0 : i - ds2.length = 0 := by
          rcases Nat.eq_zero_or_pos (i - ds2.length) with h0 | h0
          · exact h0
          · rw [List.getElem?_eq_none (by simp only [List.length_singleton]; omega)] at he
            simp at he
        rw [hi0] at he
        simp only [List.getElem?_cons_zero, Option.some.injEq] at he
        have hdn : d < n + 1 := List.mem_range.mp hd
        have hin : i = n := by omega
        subst he
        subst hin
        omega
    · rintro ⟨hlen, hval⟩
      have hne : ds ≠ [] := by
        intro h
        simp [h] at hlen
      have hsplit := List.dropLast_append_getLast hne
      have hdl : ds.dropLast.length = n := by simp [hlen]
      have hlast : ds[n]? = some (ds.getLast hne) := by
        conv_lhs => rw [← hsplit]
        rw [List.getElem?_append_right (by omega)]
        simp [hdl]
      obtain ⟨h0, h1⟩ := hval n _ hlast
      refine ⟨ds.dropLast, (ih _).mpr ⟨hdl, ?_⟩, ?_⟩
      · intro i e he
        have hi : i < ds.dropLast.length := by
          rcases Nat.lt_or_ge i ds.dropLast.length with h | h
          · exact h
          · rw [List.getElem?_eq_none h] at he
            simp at he
        apply hval i e
        rw [← hsplit, List.getElem?_append_left hi]
        exact he
      · refine List.mem_map.mpr ⟨(ds.getLast hne).toNat, List.mem_range.mpr (by omega), ?_⟩
        rw [Int.toNat_of_nonneg h0]
        exact hsplit

theorem drawSeqs_length (n : Nat) : (drawSeqs n).length = n.factorial := by
  induction n with
  | zero => rfl
  | succ n ih =>
    rw [drawSeqs_succ, Nat.factorial_succ, ← ih]
    generalize drawSeqs n = L
    induction L with
    | nil => simp
    | cons a L ihL =>
      simp only [List.flatMap_cons, List.length_append, List.length_map, List.length_range,
        List.length_cons, ihL]
      ring

theorem drawSeqs_nodup (n : Nat) : (drawSeqs n).Nodup := by
  induction n with
  | zero => simp [drawSeqs]
  | succ n ih =>
    rw [drawSeqs_succ, List.nodup_flatMap]
    refine ⟨?_, ?_⟩
    · intro ds _
      refine List.Nodup.map ?_ (List.nodup_range _)
      intro a b hab
      simp only [List.append_cancel_left_eq, List.cons.injEq, and_true] at hab
      exact_mod_cast hab
    · refine List.Pairwise.imp_of_mem ?_ (List.Pairwise.and_mem.mp ih)
      intro a b ha hb hne
      simp only [Function.onFun, List.disjoint_left]
      intro x hxa hxb
      obtain ⟨d1, _, rfl⟩ := List.mem_map.mp hxa
      obtain ⟨d2, _, h2⟩ := List.mem_map.mp hxb
      have hlen : b.length = a.length := by
        rw [length_of_mem_drawSeqs n a ha, length_of_mem_drawSeqs n b hb]
      exact hne.2.2 (List.append_inj_left h2 hlen).symm

theorem length_filter_flatMap {β γ : Type} (L : List β) (g : β → List γ) (p : γ → Bool) :
    ((L.flatMap g).filter p).length = (L.map (fun b => ((g b).filter p).length)).sum := by
  induction L with
  | nil => rfl
  | cons a L ih =>
    simp only [List.flatMap_cons, List.filter_append, List.length_append, List.map_cons,
      List.sum_cons, ih]

theorem sum_map_add_indicator {β : Type} (L : List β) (c n : Nat) (q : β → Bool) :
    (L.map (fun b => c + (if q b = true then n else 0))).sum =
      c * L.length + n * (L.filter q).length := by
  induction L with
  | nil => simp
  | cons a L ih =>
    simp only [List.map_cons, List.sum_cons, ih, List.length_cons, List.filter_cons]
    by_cases hq : q a = true
    · simp only [hq, if_true, List.length_cons]
      ring
    · simp only [hq, if_false, Bool.false_eq_true]
      ring

theorem inner_count {α : Type} [DecidableEq α] (n : Nat) (a b t : α) :
    ((List.range (n + 1)).filter
        (fun d : Nat => decide ((if (d : Int) < 1 then a else b) = t))).length =
      (if a = t then 1 else 0) + (if b = t then n else 0) := by
  rw [List.range_succ_eq_map, List.filter_cons, List.filter_map]
  have htail : (List.range n).filter
      ((fun d : Nat => decide ((if (d : Int) < 1 then a else b) = t)) ∘ Nat.succ) =
      (List.range n).filter (fun _ => decide (b = t)) := by
    apply List.filter_congr
    intro j _
    have hj : ¬ (((j + 1 : Nat) : Int) < 1) := by omega
    simp only [Function.comp, Nat.succ_eq_add_one, hj, if_false]
  rw [htail]
  have hhead : decide ((if ((0 : Nat) : Int) < 1 then a else b) = t) = decide (a = t) := by
    simp
  rw [hhead]
  by_cases ha : a = t <;> by_cases hb : b = t <;> simp [ha, hb, Nat.add_comm]

theorem count_snoc {α : Type} [DecidableEq α] (init : α) (xs : List α) (x t : α) :
    ((drawSeqs (xs.length + 1)).filter
        (fun ds => decide (winner init ds (xs ++ [x]) = some t))).length =
      (if x = t then xs.length.factorial else 0) +
        xs.length * ((drawSeqs xs.length).filter
          (fun ds => decide (winner init ds xs = some t))).length := by
  rw [drawSeqs_succ, length_filter_flatMap]
  have hinner : ∀ ds ∈ drawSeqs xs.length,
      (((List.range (xs.length + 1)).map (fun d : Nat => ds ++ [(d : Int)])).filter
          (fun ds => decide (winner init ds (xs ++ [x]) = some t))).length =
        (if x = t then 1 else 0) +
          (if decide (winner init ds xs = some t) = true then xs.length else 0) := by
    intro ds hds
    have hlen := length_of_mem_drawSeqs _ ds hds
    rw [List.filter_map, List.length_map]
    have hpred : (List.range (xs.length + 1)).filter
        ((fun ds => decide (winner init ds (xs ++ [x]) = some t)) ∘
          (fun d : Nat => ds ++ [(d : Int)])) =
        (List.range (xs.length + 1)).filter (fun d : Nat =>
          decide ((if (d : Int) < 1 then x
            else pick (Rand.ofDraws ds).stream init xs) = t)) := by
      apply List.filter_congr
      intro d _
      simp only [Function.comp, winner_snoc init ds d xs x hlen, Option.some.injEq]
    rw [hpred, inner_count, winner_eq]
    simp only [Option.some.injEq, decide_eq_true_eq]
  rw [List.map_congr_left hinner, sum_map_add_indicator, drawSeqs_length]
  congr 1
  split <;> simp

theorem winner_tag_lt {α : Type} (init : Nat × α) (xs : List α) (hne : xs ≠ [])
    (ds : List Int) (hds : ds ∈ drawSeqs xs.length) :
    ∃ m e, m < xs.length ∧ winner init ds xs.enum = some (m, e) := by
  obtain ⟨hlen, hval⟩ := (mem_drawSeqs _ ds).mp hds
  have hpos : 0 < xs.length := List.length_pos.mpr hne
  have h0 : (Rand.ofDraws ds).stream 0 < 1 := by
    have hget : ds[0]? = some (ds.getD 0 0) := by
      rw [List.getD_eq_getElem?_getD, List.getElem?_eq_getElem (by omega)]
      rfl
    have := (hval 0 _ hget).2
    simpa [Rand.ofDraws] using this
  obtain ⟨m, _, _, hget⟩ :=
    pick_last_zero xs.enum (Rand.ofDraws ds).stream init ⟨0, by simpa using hpos, h0⟩
  rw [List.getElem?_enum] at hget
  cases hxm : xs[m]? with
  | none => simp [hxm] at hget
  | some a =>
    have hm : m < xs.length := by
      rcases Nat.lt_or_ge m xs.length with h | h
      · exact h
      · rw [List.getElem?_eq_none h] at hxm
        simp at hxm
    refine ⟨m, a, hm, ?_⟩
    rw [winner_eq]
    rw [hxm] at hget
    simpa using hget.symm

theorem count_tagged (items : List Bytes) :
    ∀ (k : Nat) (e : Bytes) (init : Nat × Bytes), items[k]? = some e →
      ((drawSeqs items.length).filter
          (fun ds => decide (winner init ds items.enum = some (k, e)))).length =
        (items.length - 1).factorial := by
  induction items using List.reverseRecOn with
  | nil =>
    intro k e init h
    simp at h
  | append_singleton xs x ih =>
    intro k e init hk
    have henum : (xs ++ [x]).enum = xs.enum ++ [(xs.length, x)] := by
      rw [List.enum_append]
      rfl
    have hcount := count_snoc init xs.enum (xs.length, x) (k, e)
    rw [List.enum_length] at hcount
    rw [henum, List.length_append, List.length_singleton, hcount, Nat.add_sub_cancel]
    rcases Nat.lt_trichotomy k xs.length with hlt | heq | hgt
    · rw [List.getElem?_append_left hlt] at hk
      have hne : ¬ ((xs.length, x) = (k, e)) := by
        intro h
        have := (Prod.mk.inj h).1
        omega
      rw [if_neg hne, ih k e init hk, Nat.zero_add]
      exact Nat.mul_factorial_pred (by omega)
    · subst heq
      rw [List.getElem?_append_right (le_refl _)] at hk
      simp only [Nat.sub_self, List.getElem?_cons_zero, Option.some.injEq] at hk
      subst hk
      rw [if_pos rfl]
      rcases List.eq_nil_or_concat xs with hnil | ⟨L, b, hconcat⟩
      · subst hnil
        simp
      · have hne : xs ≠ [] := by
          rw [hconcat]
          simp
        have hzero : (drawSeqs xs.length).filter
            (fun ds => decide (winner init ds xs.enum = some (xs.length, x))) = [] := by
          rw [List.filter_eq_nil_iff]
          intro ds hds
          obtain ⟨m, a, hm, hw⟩ := winner_tag_lt init xs hne ds hds
          rw [hw]
          simp only [Option.some.injEq, Prod.mk.injEq, decide_eq_true_eq, not_and]
          intro h
          omega
        rw [hzero]
        simp
    · rw [List.getElem?_eq_none (by simp; omega)] at hk
      simp at hk

/-- C1. Uniform selection: for every stream of entries and every position `k`
of it (counted from 0), among the draw sequences `d_1, ..., d_N` with
`0 ≤ d_i < i`, which `drawSeqs N` lists without repetition and which are `N!`
in number, exactly `(N-1)!` make the sampling loop end with the `k`-th entry as
winner, whatever winner it held before. Each entry is tagged with its position
so that equal entries at different positions are told apart. -/
theorem uniform_selection (items : List Bytes) (k : Nat) (e : Bytes) (init : Nat × Bytes)
    (hk : items[k]? = some e) :
    ((drawSeqs items.length).filter
        (fun ds => decide (winner init ds items.enum = some (k, e)))).length =
      (items.length - 1).factorial ∧
    (drawSeqs items.length).length = items.length.factorial ∧
    (drawSeqs items.length).Nodup ∧
    ∀ ds : List Int, ds ∈ drawSeqs items.length ↔
      ds.length = items.length ∧
        ∀ (i : Nat) (d : Int), ds[i]? = some d → 0 ≤ d ∧ d < (i : Int) + 1 :=
  ⟨count_tagged items k e init hk, drawSeqs_length _, drawSeqs_nodup _, mem_drawSeqs _⟩

/-- The witness of C1: of the 6 draw sequences for the stream `"a\n"`, `"b\n"`,
`"a\n"`, exactly 2 leave the second entry as winner. -/
theorem uniform_selection_witness :
    [ascii "a\n", ascii "b\n", ascii "a\n"][1]? = some (ascii "b\n") ∧
    ((drawSeqs 3).filter
        (fun ds => decide (winner (0, []) ds [ascii "a\n", ascii "b\n", ascii "a\n"].enum =
          some (1, ascii "b\n")))).length = 2 :=
  ⟨rfl, (uniform_selection [ascii "a\n", ascii "b\n", ascii "a\n"] 1 (ascii "b\n") (0, []) rfl).1⟩

end Sigrand
